import Mathlib

/-!
Shallow embedding of the integer factorization core of `src/math/prime.cc`
(`modmul`, `modpow`, `miller_rabin`, `pollard`, `factor`) and proofs of the
specification claims about it.

Machine integers are modelled as `Nat` with explicit reductions `% 2 ^ 64`
(the `ull` type) and `% 2 ^ 128` (the `__uint128_t` intermediate) at the
places the C types truncate.  The unbounded `while` loop of `pollard` and the
recursion of `factor` are modelled with explicit fuel; running out of fuel is
a distinguished error value, so every theorem about a `.ok` result speaks
about a run of the C code that actually returned.
-/

/-- The modulus of the unsigned 64-bit type `ull`, `2 ^ 64`. -/
def U64 : Nat := 2 ^ 64

/-- Embedding of `ull modmul(ull a, ull b, ull M)`:
`return (__uint128_t)a * b % M;`.
The arguments are reduced by the `ull` parameter type, the product is formed
in 128-bit arithmetic, reduced mod `M`, and truncated back to `ull` by the
return type.  Lean's convention `x % 0 = x` makes this total where the C code
would divide by zero. -/
def modmul (a b M : Nat) : Nat :=
  (a % U64) * (b % U64) % 2 ^ 128 % M % U64

/-- Loop of `ull modpow(ull b, ull e, ull mod)`:
`for (; e; b = modmul(b, b, mod), e /= 2) if (e & 1) ans = modmul(ans, b, mod);`.
The first argument is fuel making the recursion structural; each iteration
halves `e`, so fuel `e` always suffices (`modpowAuxF_eq`). -/
def modpowAuxF (m : Nat) : Nat → Nat → Nat → Nat → Nat
  | 0, _, _, ans => ans
  | fuel + 1, b, e, ans =>
    if e = 0 then ans
    else modpowAuxF m fuel (modmul b b m) (e / 2)
      (if e % 2 = 1 then modmul ans b m else ans)

/-- Embedding of `ull modpow(ull b, ull e, ull mod)`: binary exponentiation
with accumulator `ans = 1`. -/
def modpow (b e m : Nat) : Nat := modpowAuxF m e b e 1

/-- Trailing-zero count used for `s = __builtin_ctzll(n-1)`, with fuel making
the recursion structural; fuel `m` suffices for input `m`. -/
def ctzF : Nat → Nat → Nat
  | 0, _ => 0
  | fuel + 1, m => if m % 2 = 0 ∧ m ≠ 0 then 1 + ctzF fuel (m / 2) else 0

/-- `__builtin_ctzll`: number of trailing zero bits (the C builtin is
undefined at 0; `miller_rabin` only applies it to even numbers `≥ 4`). -/
def ctz (m : Nat) : Nat := ctzF m m

/-- The inner witness loop of `miller_rabin`:
`while (p != 1 && p != n - 1 && a % n && i--) p = modmul(p, p, n);`
returning the final values of `(p, i)`.  The post-decrement `i--` is
evaluated only after the first three conjuncts hold; when it is evaluated at
`i = 0` the loop exits and the unsigned `i` wraps to `2 ^ 64 - 1`. -/
def mrLoop (n a : Nat) : Nat → Nat → Nat × Nat
  | p, 0 => if p ≠ 1 ∧ p ≠ n - 1 ∧ a % n ≠ 0 then (p, U64 - 1) else (p, 0)
  | p, i + 1 =>
    if p ≠ 1 ∧ p ≠ n - 1 ∧ a % n ≠ 0 then mrLoop n a (modmul p p n) i
    else (p, i + 1)

/-- One witness iteration of the `for (ull a : A)` loop of `miller_rabin`:
`ull p = modpow(a%n, d, n), i = s;` then the `while` loop, then
`if (p != n-1 && i != s) return 0;`.  Returns `true` iff the witness does not
cause that `return 0`. -/
def millerRabinWitness (n d s a : Nat) : Bool :=
  let r := mrLoop n a (modpow (a % n) d n) s
  !decide (r.1 ≠ n - 1 ∧ r.2 ≠ s)

/-- The fixed witness array `A` of `miller_rabin`. -/
def A : List Nat := [2, 325, 9375, 28178, 450775, 9780504, 1795265022]

/-- Embedding of `bool miller_rabin(ull n)` from `src/math/prime.cc`:
`if (n < 2 || n % 6 % 4 != 1) return (n | 1) == 3;` then the witness loop
with `s = __builtin_ctzll(n-1), d = n >> s`. -/
def miller_rabin (n : Nat) : Bool :=
  if n < 2 ∨ n % 6 % 4 ≠ 1 then decide (n ||| 1 = 3)
  else A.all (millerRabinWitness n (n >>> ctz (n - 1)) (ctz (n - 1)))

/-- Errors of the fueled embedding: `loopOut` models running out of fuel in
the `while` loop of `pollard`, `recOut` running out of recursion fuel in
`factor`. -/
inductive Err
  | loopOut
  | recOut
  deriving DecidableEq

/-- The iteration lambda of `pollard`:
`auto f = [n](ull x) { return modmul(x, x, n) + 1; };`. -/
def pRho (n x : Nat) : Nat := modmul x x n + 1

/-- Embedding of the `while` loop of `ull pollard(ull n)`:
`while (t++ % 40 || __gcd(prd, n) == 1) { if (x == y) x = ++i, y = f(x);
if ((q = modmul(prd, max(x,y) - min(x,y), n))) prd = q;
x = f(x), y = f(f(y)); }` followed by `return __gcd(prd, n);`.
The first loop argument is fuel; the loop itself has no termination bound. -/
def pollardLoop (n : Nat) : Nat → Nat → Nat → Nat → Nat → Nat → Except Err Nat
  | 0, _, _, _, _, _ => .error .loopOut
  | fuel + 1, x, y, t, prd, i =>
    if t % 40 ≠ 0 ∨ Nat.gcd prd n = 1 then
      let x1 := if x = y then i + 1 else x
      let y1 := if x = y then pRho n (i + 1) else y
      let i1 := if x = y then i + 1 else i
      let q := modmul prd (max x1 y1 - min x1 y1) n
      let prd1 := if q ≠ 0 then q else prd
      pollardLoop n fuel (pRho n x1) (pRho n (pRho n y1)) (t + 1) prd1 i1
    else .ok (Nat.gcd prd n)

/-- Embedding of `ull pollard(ull n)` with initial state
`x = 0, y = 0, t = 30, prd = 2, i = 1`. -/
def pollard (fuel n : Nat) : Except Err Nat := pollardLoop n fuel 0 0 30 2 1

/-- Embedding of `vector<ull> factor(ull n)`:
`if (n == 1) return {}; if (miller_rabin(n)) return {n};
ull x = pollard(n); auto l = factor(x), r = factor(n / x); l.insert(...);`.
`pf` is fuel for each call to `pollard`, the second argument is recursion
fuel. -/
def factor (pf : Nat) : Nat → Nat → Except Err (List Nat)
  | 0, _ => .error .recOut
  | rf + 1, n =>
    if n = 1 then .ok []
    else if miller_rabin n then .ok [n]
    else
      match pollard pf n with
      | .error e => .error e
      | .ok x =>
        match factor pf rf x, factor pf rf (n / x) with
        | .error e, _ => .error e
        | .ok _, .error e => .error e
        | .ok l, .ok r => .ok (l ++ r)

/-- Errors of the guarded-division embedding used for the `Factor(0)` claim:
`divZero` is raised where the C code would compute `% 0`. -/
inductive GErr
  | divZero
  | loopOut
  | recOut
  deriving DecidableEq

/-- Guarded-division variant of `modmul`: taking `% M` with `M = 0` is a
division by zero in the C code, reported as an error. -/
def modmulG (a b M : Nat) : Except GErr Nat :=
  if M = 0 then .error .divZero else .ok (modmul a b M)

/-- Guarded-division variant of the `pollard` lambda `f`. -/
def pRhoG (n x : Nat) : Except GErr Nat :=
  match modmulG x x n with
  | .error e => .error e
  | .ok v => .ok (v + 1)

/-- Guarded-division variant of the `pollard` loop: identical iteration
structure to `pollardLoop`, with every `modmul` checked. -/
def pollardLoopG (n : Nat) : Nat → Nat → Nat → Nat → Nat → Nat → Except GErr Nat
  | 0, _, _, _, _, _ => .error .loopOut
  | fuel + 1, x, y, t, prd, i =>
    if t % 40 ≠ 0 ∨ Nat.gcd prd n = 1 then
      match (if x = y then (pRhoG n (i + 1)).map (fun y2 => (i + 1, y2, i + 1))
             else .ok (x, y, i)) with
      | .error e => .error e
      | .ok (x1, y1, i1) =>
        match modmulG prd (max x1 y1 - min x1 y1) n with
        | .error e => .error e
        | .ok q =>
          let prd1 := if q ≠ 0 then q else prd
          match pRhoG n x1 with
          | .error e => .error e
          | .ok x2 =>
            match pRhoG n y1 with
            | .error e => .error e
            | .ok y2 =>
              match pRhoG n y2 with
              | .error e => .error e
              | .ok y3 => pollardLoopG n fuel x2 y3 (t + 1) prd1 i1
    else .ok (Nat.gcd prd n)

/-- Guarded-division variant of `pollard`. -/
def pollardG (fuel n : Nat) : Except GErr Nat := pollardLoopG n fuel 0 0 30 2 1

/-- Guarded-division variant of `factor`. -/
def factorG (pf : Nat) : Nat → Nat → Except GErr (List Nat)
  | 0, _ => .error .recOut
  | rf + 1, n =>
    if n = 1 then .ok []
    else if miller_rabin n then .ok [n]
    else
      match pollardG pf n with
      | .error e => .error e
      | .ok x =>
        match factorG pf rf x, factorG pf rf (n / x) with
        | .error e, _ => .error e
        | .ok _, .error e => .error e
        | .ok l, .ok r => .ok (l ++ r)

/-! ### Arithmetic lemmas about `modmul` and `modpow` -/

/-- `modmul` always lands in `[0, m)` for a positive modulus, whatever the
arguments. -/
theorem modmul_lt (a b m : Nat) (hm : 0 < m) : modmul a b m < m :=
  lt_of_le_of_lt (Nat.mod_le _ _) (Nat.mod_lt _ hm)

/-- On 64-bit arguments and a 64-bit modulus, `modmul` is exact: the 128-bit
product does not wrap and neither truncation changes the value. -/
theorem modmul_eq (a b m : Nat) (ha : a < U64) (hb : b < U64) (hm : 0 < m)
    (hm2 : m ≤ U64) : modmul a b m = a * b % m := by
  have h128 : a * b < 2 ^ 128 := by
    have h1 : a * b < U64 * U64 :=
      mul_lt_mul'' ha hb (Nat.zero_le a) (Nat.zero_le b)
    have h2 : U64 * U64 = 2 ^ 128 := by rw [U64, ← pow_add]
    omega
  unfold modmul
  rw [Nat.mod_eq_of_lt ha, Nat.mod_eq_of_lt hb, Nat.mod_eq_of_lt h128,
    Nat.mod_eq_of_lt (lt_of_lt_of_le (Nat.mod_lt _ hm) hm2)]

/-- With the exponent already zero, the `modpow` loop returns the accumulator
unchanged, for any fuel. -/
theorem modpowAuxF_exp_zero (m b ans : Nat) : ∀ fuel, modpowAuxF m fuel b 0 ans = ans := by
  intro fuel
  cases fuel with
  | zero => rfl
  | succ fuel => simp [modpowAuxF]

/-- Fuel `e` suffices for the `modpow` loop, and on 64-bit data it computes
`ans * b ^ e mod m`. -/
theorem modpowAuxF_eq (m : Nat) (hm : 0 < m) (hm2 : m ≤ U64) :
    ∀ fuel e b ans, 1 ≤ e → e ≤ fuel → b < U64 → ans < U64 →
      modpowAuxF m fuel b e ans = ans * b ^ e % m := by
  intro fuel
  induction fuel with
  | zero => intro e b ans he hef _ _; omega
  | succ fuel ih =>
    intro e b ans he hef hb hans
    have he0 : ¬ e = 0 := by omega
    simp only [modpowAuxF]
    rw [if_neg he0]
    by_cases h2 : e / 2 = 0
    · have he1 : e = 1 := by omega
      subst he1
      norm_num
      rw [modpowAuxF_exp_zero]
      rw [modmul_eq ans b m hans hb hm hm2]
    · have h21 : 1 ≤ e / 2 := Nat.pos_of_ne_zero h2
      have h2f : e / 2 ≤ fuel := by omega
      have hb' : modmul b b m < U64 := lt_of_lt_of_le (modmul_lt b b m hm) hm2
      have hbb : modmul b b m = b * b % m := modmul_eq b b m hb hb hm hm2
      by_cases hodd : e % 2 = 1
      · rw [if_pos hodd]
        have hans' : modmul ans b m < U64 := lt_of_lt_of_le (modmul_lt ans b m hm) hm2
        rw [ih (e / 2) (modmul b b m) (modmul ans b m) h21 h2f hb' hans']
        rw [hbb, modmul_eq ans b m hans hb hm hm2]
        have hmm : Nat.ModEq m ((ans * b % m) * ((b * b % m) ^ (e / 2)))
            ((ans * b) * ((b * b) ^ (e / 2))) :=
          Nat.ModEq.mul (Nat.mod_modEq _ _) (Nat.ModEq.pow _ (Nat.mod_modEq _ _))
        have hE : (ans * b) * ((b * b) ^ (e / 2)) = ans * b ^ e := by
          obtain ⟨k, hk⟩ : ∃ k, e = 2 * k + 1 := ⟨e / 2, by omega⟩
          subst hk
          rw [show (2 * k + 1) / 2 = k by omega]
          ring
        rw [← hE]
        exact hmm
      · rw [if_neg hodd]
        rw [ih (e / 2) (modmul b b m) ans h21 h2f hb' hans]
        rw [hbb]
        have hmm : Nat.ModEq m (ans * ((b * b % m) ^ (e / 2)))
            (ans * ((b * b) ^ (e / 2))) :=
          Nat.ModEq.mul (Nat.ModEq.refl _) (Nat.ModEq.pow _ (Nat.mod_modEq _ _))
        have hE : ans * ((b * b) ^ (e / 2)) = ans * b ^ e := by
          obtain ⟨k, hk⟩ : ∃ k, e = 2 * k := ⟨e / 2, by omega⟩
          subst hk
          rw [show 2 * k / 2 = k by omega]
          ring
        rw [← hE]
        exact hmm

/-- For a positive exponent the `modpow` loop ends with a `modmul`, so the
result is `< m`, with no assumption on the base or accumulator. -/
theorem modpowAuxF_lt (m : Nat) (hm : 0 < m) :
    ∀ fuel e b ans, 1 ≤ e → e ≤ fuel → modpowAuxF m fuel b e ans < m := by
  intro fuel
  induction fuel with
  | zero => intro e b ans he hef; omega
  | succ fuel ih =>
    intro e b ans he hef
    have he0 : ¬ e = 0 := by omega
    simp only [modpowAuxF]
    rw [if_neg he0]
    by_cases h2 : e / 2 = 0
    · have he1 : e = 1 := by omega
      subst he1
      norm_num
      rw [modpowAuxF_exp_zero]
      exact modmul_lt ans b m hm
    · exact ih (e / 2) _ _ (Nat.pos_of_ne_zero h2) (by omega)

/-- `modpow` computes `b ^ e mod m` for positive exponents and 64-bit data. -/
theorem modpow_eq_pow_mod (b e m : Nat) (hm : 0 < m) (hm2 : m ≤ U64) (hb : b < U64)
    (he : 1 ≤ e) : modpow b e m = b ^ e % m := by
  unfold modpow
  rw [modpowAuxF_eq m hm hm2 e e b 1 he (le_refl e) hb (by norm_num [U64]), one_mul]

/-- For a positive exponent, `modpow` lands in `[0, m)` for any base. -/
theorem modpow_lt (b e m : Nat) (hm : 0 < m) (he : 1 ≤ e) : modpow b e m < m :=
  modpowAuxF_lt m hm e e b 1 he (le_refl e)

/-! ### Claims C3, C4, C9 -/

/-- Claim C3: for all `a, b, m` with `0 ≤ a, b < m` and `m ≤ ~7.2×10^18`,
`ModMultiply(a, b, m)` equals `(a·b) mod m` computed in arbitrary precision,
with no silent overflow. -/
theorem modmul_exact (a b m : Nat) (ha : a < m) (hb : b < m)
    (hm : m ≤ 7200000000000000000) : modmul a b m = a * b % m := by
  have hU : (7200000000000000000 : Nat) < U64 := by norm_num [U64]
  exact modmul_eq a b m (by omega) (by omega) (by omega) (by omega)

/-- Witness for C3 at `a = 123456`, `b = 654321`, `m = 1000003`. -/
theorem modmul_exact_witness : modmul 123456 654321 1000003 = 123456 * 654321 % 1000003 :=
  modmul_exact 123456 654321 1000003 (by norm_num) (by norm_num) (by norm_num)

/-- Claim C4 counterexample: at `m = 1`, `b = 0`, `e = 0` the code returns
the literal `1`, while `b ^ e mod m = 0 ^ 0 mod 1 = 0`, so `e = 0` does not
return `1 mod m` for every modulus `m > 0`. -/
theorem modpow_claim_counterexample : ¬ (modpow 0 0 1 = 0 ^ 0 % 1) := by decide

/-- Claim C4 (amended): for every modulus `m > 0` in the 64-bit domain,
every base `0 ≤ b < m`, and every exponent `e ≥ 0` except the single corner
`e = 0` with `m = 1`, `ModPower(b, e, m) = b ^ e mod m`; at `e = 0` the code
returns the literal `1`, which equals `1 mod m` only when `m ≥ 2`. -/
theorem modpow_exact (b e m : Nat) (hm : 0 < m) (hmu : m ≤ U64) (hb : b < m)
    (he : 1 ≤ e ∨ 2 ≤ m) : modpow b e m = b ^ e % m := by
  cases e with
  | zero =>
    have hm2 : 2 ≤ m := by
      rcases he with h | h
      · omega
      · exact h
    have h1 : modpow b 0 m = 1 := rfl
    rw [h1, pow_zero, Nat.mod_eq_of_lt (by omega)]
  | succ e =>
    exact modpow_eq_pow_mod b (e + 1) m hm hmu (lt_of_lt_of_le hb hmu) (by omega)

/-- Witness for C4 (amended) at `b = 2`, `e = 10`, `m = 1000`. -/
theorem modpow_exact_witness : modpow 2 10 1000 = 2 ^ 10 % 1000 :=
  modpow_exact 2 10 1000 (by norm_num) (by norm_num [U64]) (by norm_num)
    (Or.inl (by norm_num))

/-- Claim C9: for every `m > 0` and all `a, b` with no precondition `a, b < m`,
`ModMultiply(a, b, m) < m`, and for every exponent `e ≥ 1` and every base `b`,
`ModPower(b, e, m) < m`: both primitives land in `[0, m)`. -/
theorem modmul_modpow_range (a b e m : Nat) (hm : 0 < m) (he : 1 ≤ e) :
    modmul a b m < m ∧ modpow b e m < m :=
  ⟨modmul_lt a b m hm, modpow_lt b e m hm he⟩

/-- Witness for C9 at `a = 7`, `b = 9`, `e = 3`, `m = 10` (note `a, b` need
not be below `m` — here they are not reduced residues of anything). -/
theorem modmul_modpow_range_witness : modmul 7 9 10 < 10 ∧ modpow 9 3 10 < 10 :=
  modmul_modpow_range 7 9 3 10 (by norm_num) (by norm_num)

/-! ### The `pollard` loop invariant -/

/-- The accumulator update `if ((q = modmul(prd, ..., n))) prd = q;` keeps
`prd` in `[1, n)`: it is replaced only by a non-zero `modmul` value. -/
theorem prdUpdate_inv (n p D : Nat) (hn : 0 < n) (h1 : 1 ≤ p) (h2 : p < n) :
    1 ≤ (if modmul p D n ≠ 0 then modmul p D n else p) ∧
      (if modmul p D n ≠ 0 then modmul p D n else p) < n := by
  by_cases hq : modmul p D n ≠ 0
  · simp only [if_pos hq]
    exact ⟨Nat.pos_of_ne_zero hq, modmul_lt _ _ _ hn⟩
  · simp only [if_neg hq]
    exact ⟨h1, h2⟩

/-- Loop invariant of `pollard`: while `1 ≤ prd < n`, any `.ok` result of the
loop is a non-trivial divisor of `n`. -/
theorem pollardLoop_sound (n : Nat) (hn : 0 < n) :
    ∀ fuel x y t prd i d, 1 ≤ prd → prd < n →
      pollardLoop n fuel x y t prd i = .ok d → d ∣ n ∧ 1 < d ∧ d < n := by
  intro fuel
  induction fuel with
  | zero => intro x y t prd i d _ _ h; simp [pollardLoop] at h
  | succ fuel ih =>
    intro x y t prd i d h1 h2 h
    simp only [pollardLoop] at h
    by_cases hc : t % 40 ≠ 0 ∨ Nat.gcd prd n = 1
    · rw [if_pos hc] at h
      exact ih _ _ _ _ _ _ (prdUpdate_inv n prd _ hn h1 h2).1
        (prdUpdate_inv n prd _ hn h1 h2).2 h
    · rw [if_neg hc] at h
      push_neg at hc
      obtain ⟨ht, hg⟩ := hc
      injection h with h
      subst h
      have hpos : 0 < Nat.gcd prd n := Nat.gcd_pos_of_pos_left n h1
      have hle : Nat.gcd prd n ≤ prd := Nat.le_of_dvd h1 (Nat.gcd_dvd_left _ _)
      exact ⟨Nat.gcd_dvd_right _ _, by omega, by omega⟩

/-- The only error the (total-arithmetic) `pollard` loop can produce is
running out of fuel. -/
theorem pollardLoop_error_loopOut (n : Nat) :
    ∀ fuel x y t prd i e, pollardLoop n fuel x y t prd i = .error e →
      e = .loopOut := by
  intro fuel
  induction fuel with
  | zero =>
    intro x y t prd i e h
    simp only [pollardLoop] at h
    injection h with h
    exact h.symm
  | succ fuel ih =>
    intro x y t prd i e h
    simp only [pollardLoop] at h
    by_cases hc : t % 40 ≠ 0 ∨ Nat.gcd prd n = 1
    · rw [if_pos hc] at h
      exact ih _ _ _ _ _ _ h
    · rw [if_neg hc] at h
      exact absurd h (by simp)

/-- Fuel monotonicity of the `pollard` loop: a run that returns keeps
returning the same value with more fuel. -/
theorem pollardLoop_mono (n : Nat) :
    ∀ fuel fuel2 x y t prd i d, fuel ≤ fuel2 →
      pollardLoop n fuel x y t prd i = .ok d →
      pollardLoop n fuel2 x y t prd i = .ok d := by
  intro fuel
  induction fuel with
  | zero => intro fuel2 x y t prd i d _ h; simp [pollardLoop] at h
  | succ fuel ih =>
    intro fuel2 x y t prd i d hle h
    obtain ⟨f2, rfl⟩ : ∃ k, fuel2 = k + 1 := ⟨fuel2 - 1, by omega⟩
    simp only [pollardLoop] at h ⊢
    by_cases hc : t % 40 ≠ 0 ∨ Nat.gcd prd n = 1
    · rw [if_pos hc] at h ⊢
      exact ih f2 _ _ _ _ _ _ (by omega) h
    · rw [if_neg hc] at h ⊢
      exact h

/-- Any `.ok` result of `pollard n` for `n ≥ 3` is a non-trivial divisor
of `n` (the initial accumulator `2` is below `n`). -/
theorem pollard_nontrivial (fuel n d : Nat) (hn : 3 ≤ n)
    (h : pollard fuel n = .ok d) : d ∣ n ∧ 1 < d ∧ d < n :=
  pollardLoop_sound n (by omega) fuel 0 0 30 2 1 d (by omega) (by omega) h

/-! ### Claim C5 -/

/-- Claim C5: for every composite `n > 1`, whenever `PollardFactor(n)`
returns, its result `d` is a non-trivial divisor of `n`: `d` divides `n` and
`1 < d < n` (including the degenerate case `n = 4`, handled by starting the
accumulator at `2`). -/
theorem pollard_returns_nontrivial_divisor (fuel n d : Nat) (hn : 1 < n)
    (hnp : ¬ Nat.Prime n) (h : pollard fuel n = .ok d) :
    d ∣ n ∧ 1 < d ∧ d < n := by
  have hn3 : 3 ≤ n := by
    by_contra hlt
    have h2 : n = 2 := by omega
    subst h2
    exact hnp Nat.prime_two
  exact pollard_nontrivial fuel n d hn3 h

/-- Witness for C5: on the degenerate composite `n = 4` the loop returns the
non-trivial divisor `2`. -/
theorem pollard_returns_nontrivial_divisor_witness : (2 : Nat) ∣ 4 ∧ 1 < 2 ∧ 2 < 4 :=
  pollard_returns_nontrivial_divisor 50 4 2 (by norm_num) (by norm_num) rfl

/-- Fuel monotonicity of `pollard` itself. -/
theorem pollard_mono (pf pf2 n x : Nat) (hpf : pf ≤ pf2) (h : pollard pf n = .ok x) :
    pollard pf2 n = .ok x :=
  pollardLoop_mono n pf pf2 0 0 30 2 1 x hpf h

/-! ### Claim C1 -/

/-- Claim C1: for every `n ≥ 1`, any sequence returned by `Factor(n)` is a
multiset of prime factors of `n`: the product of all returned elements equals
`n`, every returned element is prime per `IsProbablePrime`, and the returned
sequence is empty if and only if `n = 1`. -/
theorem factor_correct (pf rf : Nat) :
    ∀ n l, 1 ≤ n → factor pf rf n = .ok l →
      l.prod = n ∧ (∀ p ∈ l, miller_rabin p = true) ∧ (l = [] ↔ n = 1) := by
  induction rf with
  | zero => intro n l _ h; simp [factor] at h
  | succ rf ih =>
    intro n l hn h
    simp only [factor] at h
    by_cases h1 : n = 1
    · subst h1
      rw [if_pos rfl] at h
      injection h with h
      subst h
      simp
    · rw [if_neg h1] at h
      by_cases hp : miller_rabin n = true
      · rw [if_pos hp] at h
        injection h with h
        subst h
        refine ⟨by simp, ?_, by simp [h1]⟩
        intro p hpm
        simp only [List.mem_singleton] at hpm
        subst hpm
        exact hp
      · rw [if_neg hp] at h
        have hn2 : n ≠ 2 := by
          intro h2
          subst h2
          exact hp (by decide)
        have hn3 : 3 ≤ n := by omega
        cases hpol : pollard pf n with
        | error e => simp only [hpol] at h; exact Except.noConfusion h
        | ok x =>
          simp only [hpol] at h
          obtain ⟨hdvd, hx1, hxn⟩ := pollard_nontrivial pf n x hn3 hpol
          cases hl : factor pf rf x with
          | error e => simp only [hl] at h; exact Except.noConfusion h
          | ok lx =>
            cases hr : factor pf rf (n / x) with
            | error e => simp only [hl, hr] at h; exact Except.noConfusion h
            | ok lr =>
              simp only [hl, hr, Except.ok.injEq] at h
              subst h
              have hxpos : 1 ≤ x := by omega
              have hxle : x ≤ n := Nat.le_of_dvd (by omega) hdvd
              have hnx1 : 1 ≤ n / x := (Nat.one_le_div_iff (by omega)).mpr hxle
              obtain ⟨p1, m1, e1⟩ := ih x lx hxpos hl
              obtain ⟨p2, m2, e2⟩ := ih (n / x) lr hnx1 hr
              refine ⟨?_, ?_, ?_⟩
              · rw [List.prod_append, p1, p2]
                exact Nat.mul_div_cancel' hdvd
              · intro p hpm
                rcases List.mem_append.mp hpm with hmem | hmem
                · exact m1 p hmem
                · exact m2 p hmem
              · constructor
                · intro happ
                  obtain ⟨hlx, _⟩ := List.append_eq_nil.mp happ
                  have := e1.mp hlx
                  omega
                · intro hne
                  exact absurd hne h1

/-- Witness for C1: a returned run `Factor(4) = [2, 2]`. -/
theorem factor_correct_witness :
    ([2, 2] : List Nat).prod = 4 ∧ (∀ p ∈ ([2, 2] : List Nat), miller_rabin p = true) ∧
      (([2, 2] : List Nat) = [] ↔ (4 : Nat) = 1) :=
  factor_correct 50 10 4 [2, 2] (by norm_num) rfl

/-! ### Claim C7 -/

/-- Claim C7: for every `n ≥ 1`, recursion fuel `rf` with `n < 2 ^ rf` is
never exhausted: every recursive call is on a proper divisor of its argument
that is at least `2`, so the depth of the call tree is bounded by `log₂ n + 1`
(at most 64 for 64-bit `n`). -/
theorem factor_recursion_depth (pf rf : Nat) :
    ∀ n, 1 ≤ n → n < 2 ^ rf → factor pf rf n ≠ .error .recOut := by
  induction rf with
  | zero => intro n hn hlt; rw [pow_zero] at hlt; omega
  | succ rf ih =>
    intro n hn hlt hcontra
    simp only [factor] at hcontra
    by_cases h1 : n = 1
    · rw [if_pos h1] at hcontra; exact Except.noConfusion hcontra
    rw [if_neg h1] at hcontra
    by_cases hp : miller_rabin n = true
    · rw [if_pos hp] at hcontra; exact Except.noConfusion hcontra
    rw [if_neg hp] at hcontra
    have hn2 : n ≠ 2 := by
      intro h2
      subst h2
      exact hp (by decide)
    have hn3 : 3 ≤ n := by omega
    cases hpol : pollard pf n with
    | error e =>
      have he := pollardLoop_error_loopOut n pf 0 0 30 2 1 e hpol
      subst he
      simp only [hpol] at hcontra
      injection hcontra with hE
      exact Err.noConfusion hE
    | ok x =>
      simp only [hpol] at hcontra
      obtain ⟨hdvd, hx1, hxn⟩ := pollard_nontrivial pf n x hn3 hpol
      have hpow : 2 ^ (rf + 1) = 2 * 2 ^ rf := by rw [pow_succ]; ring
      have h2x : 2 * x ≤ n := by
        obtain ⟨k, hk⟩ := hdvd
        have hk0 : k ≠ 0 := by rintro rfl; omega
        have hk1 : k ≠ 1 := by rintro rfl; omega
        have hk2 : 2 ≤ k := by omega
        calc 2 * x ≤ k * x := Nat.mul_le_mul_right x hk2
        _ = x * k := Nat.mul_comm k x
        _ = n := hk.symm
      have hxb : x < 2 ^ rf := by omega
      have hnxb : n / x < 2 ^ rf := by
        have hdx : n / x ≤ n / 2 := Nat.div_le_div_left (by omega) (by omega)
        have hh : n / 2 < 2 ^ rf := by omega
        omega
      have h1x : 1 ≤ x := by omega
      have h1nx : 1 ≤ n / x :=
        (Nat.one_le_div_iff (by omega)).mpr (Nat.le_of_dvd (by omega) hdvd)
      cases hl : factor pf rf x with
      | error e =>
        simp only [hl, Except.error.injEq] at hcontra
        exact (ih x h1x hxb) (hcontra ▸ hl)
      | ok lx =>
        cases hr : factor pf rf (n / x) with
        | error e =>
          simp only [hl, hr, Except.error.injEq] at hcontra
          exact (ih (n / x) h1nx hnxb) (hcontra ▸ hr)
        | ok lr =>
          simp only [hl, hr] at hcontra
          exact Except.noConfusion hcontra

/-- Witness for C7: recursion fuel `3` suffices for `n = 6 < 2 ^ 3`. -/
theorem factor_recursion_depth_witness : factor 50 3 6 ≠ .error .recOut :=
  factor_recursion_depth 50 3 6 (by norm_num) (by norm_num)

/-! ### Claim C8 -/

/-- Fuel monotonicity of `factor` in both fuels: a run that returns keeps
returning the same sequence. -/
theorem factor_mono :
    ∀ rf rf2 pf pf2 n l, rf ≤ rf2 → pf ≤ pf2 →
      factor pf rf n = .ok l → factor pf2 rf2 n = .ok l := by
  intro rf
  induction rf with
  | zero => intro rf2 pf pf2 n l _ _ h; simp [factor] at h
  | succ rf ih =>
    intro rf2 pf pf2 n l hrf hpf h
    obtain ⟨r2, rfl⟩ : ∃ k, rf2 = k + 1 := ⟨rf2 - 1, by omega⟩
    simp only [factor] at h ⊢
    by_cases h1 : n = 1
    · rw [if_pos h1] at h ⊢; exact h
    rw [if_neg h1] at h ⊢
    by_cases hp : miller_rabin n = true
    · rw [if_pos hp] at h ⊢; exact h
    rw [if_neg hp] at h ⊢
    cases hpol : pollard pf n with
    | error e => simp only [hpol] at h; exact Except.noConfusion h
    | ok x =>
      simp only [hpol] at h
      have hpol2 := pollard_mono pf pf2 n x hpf hpol
      simp only [hpol2]
      cases hl : factor pf rf x with
      | error e => simp only [hl] at h; exact Except.noConfusion h
      | ok lx =>
        cases hr : factor pf rf (n / x) with
        | error e => simp only [hl, hr] at h; exact Except.noConfusion h
        | ok lr =>
          simp only [hl, hr, Except.ok.injEq] at h
          have hl2 := ih r2 pf pf2 x lx (by omega) hpf hl
          have hr2 := ih r2 pf pf2 (n / x) lr (by omega) hpf hr
          simp only [hl2, hr2, Except.ok.injEq]
          exact h

/-- Claim C8: for every `n ≥ 1`, any two runs of `Factor(n)` that return
produce sequences that are equal as multisets (here: permutations of each
other; in fact the implementation is deterministic given enough fuel). -/
theorem factor_deterministic (pf1 rf1 pf2 rf2 n : Nat) (l1 l2 : List Nat)
    (_hn : 1 ≤ n) (h1 : factor pf1 rf1 n = .ok l1)
    (h2 : factor pf2 rf2 n = .ok l2) : l1.Perm l2 := by
  have e1 := factor_mono rf1 (max rf1 rf2) pf1 (max pf1 pf2) n l1
    (le_max_left _ _) (le_max_left _ _) h1
  have e2 := factor_mono rf2 (max rf1 rf2) pf2 (max pf1 pf2) n l2
    (le_max_right _ _) (le_max_right _ _) h2
  rw [e1] at e2
  injection e2 with e2
  subst e2
  exact List.Perm.refl l1

/-- Witness for C8: two runs on `n = 4` with different fuel. -/
theorem factor_deterministic_witness : List.Perm ([2, 2] : List Nat) [2, 2] :=
  factor_deterministic 50 10 60 11 4 [2, 2] [2, 2] (by norm_num) rfl rfl

/-! ### Claim C6 -/

/-- Claim C6: for every `n` that reaches the witness loop and every witness
`a` with `a mod n = 0`, the witness is treated as passing: the `a % n`
conjunct stops the squaring loop immediately, so `i = s` at the final test
and the witness never causes `miller_rabin` to return `false`. -/
theorem millerRabin_zero_witness_passes (n d s a : Nat)
    (_hn : ¬ (n < 2 ∨ n % 6 % 4 ≠ 1)) (_ha : a ∈ A) (h : a % n = 0) :
    millerRabinWitness n d s a = true := by
  have hml : mrLoop n a (modpow (a % n) d n) s = (modpow (a % n) d n, s) := by
    cases s with
    | zero => simp [mrLoop, h]
    | succ s => simp [mrLoop, h]
  simp only [millerRabinWitness]
  rw [hml]
  simp

/-- Witness for C6: `n = 5` reaches the witness loop and `325 mod 5 = 0`. -/
theorem millerRabin_zero_witness_passes_witness : millerRabinWitness 5 1 2 325 = true :=
  millerRabin_zero_witness_passes 5 1 2 325 (by decide) (by simp [A]) (by decide)

/-! ### Claim C10 -/

/-- Claim C10: `Factor(0)` produces no value: `IsProbablePrime(0)` is false,
so `Factor(0)` calls `PollardFactor(0)`, whose first iteration applies
`ModMultiply` with modulus `0`; in the guarded-division embedding this is the
`divZero` error branch, not a factor sequence. -/
theorem factorG_zero_errors (pf rf : Nat) (hpf : 1 ≤ pf) (hrf : 1 ≤ rf) :
    factorG pf rf 0 = .error .divZero := by
  obtain ⟨p1, rfl⟩ : ∃ k, pf = k + 1 := ⟨pf - 1, by omega⟩
  obtain ⟨r1, rfl⟩ : ∃ k, rf = k + 1 := ⟨rf - 1, by omega⟩
  rfl

/-- Witness for C10 at minimal fuel. -/
theorem factorG_zero_errors_witness : factorG 1 1 0 = .error .divZero :=
  factorG_zero_errors 1 1 (by norm_num) (by norm_num)

